import Mathlib

/-!
# Verification of the AlleleFinder probe-search core (`probe_creator.py`)

Shallow embedding of the conservation-window search pipeline of the
`Probes` class: conservation-profile construction (`probefinder`,
lines 217-227), alignment padding (lines 185-207), the sliding-window
generator (`window`, lines 322-336), the descending-size probe search
(`probefinder`, lines 229-271), location resolution (`probe_location`,
lines 273-293) and allele extraction (`probes`, lines 295-320).

Sequences and alignment rows are embedded as `List Char`, per-column
identity values and window statistics as `ℚ`.  Python's
`float('{:.2f}'.format(x))` is embedded as rounding to the nearest
hundredth over `ℚ` (`roundTo2`); every concrete value used in examples
is far from a rounding tie, so the binary-float ties-to-even detail of
CPython never matters here.
-/

namespace AlleleFinder

/-- Embedding of `float('{:.2f}'.format(x))` (lines 223, 227, 256):
round to the nearest hundredth. -/
def roundTo2 (q : ℚ) : ℚ := (round (q * 100) : ℚ) / 100

/-- Python slice `s[a:b]` for `0 ≤ a ≤ b` on a sequence: drop `a`
elements, then take at most `b - a`.  Out-of-range bounds clamp, as in
Python; no error is possible. -/
def pySlice (s : List Char) (a b : ℕ) : List Char := (s.drop a).take (b - a)

/-- Embedding of Python's `min` over a list of numbers (line 252, 255).
`min([])` raises in Python; the `[]` case returns `0` and is proved
unreachable wherever it matters. -/
def listMin : List ℚ → ℚ
  | [] => 0
  | h :: t => t.foldl min h

/-- Tail of the `Probes.window` generator (lines 334-336): after the
initial window, each remaining element `e` yields `win[1:] + [e]`. -/
def windowAux (win : List ℚ) : List ℚ → List (List ℚ)
  | [] => []
  | e :: rest => (win.drop 1 ++ [e]) :: windowAux (win.drop 1 ++ [e]) rest

/-- Embedding of the `Probes.window` generator (lines 322-336).  The
generator first consumes `size` elements (lines 331-332); if the
iterable is exhausted early the `StopIteration` of `next` ends the
generator without yielding (the pre-PEP-479 semantics this
Python-3.5-era script runs under), so `size > length` produces no
windows.  Otherwise it yields the first window and then one shifted
window per remaining element. -/
def window (l : List ℚ) (size : ℕ) : List (List ℚ) :=
  if size ≤ l.length then (l.take size) :: windowAux (l.take size) (l.drop size)
  else []

theorem take_len_succ_append (l : List ℚ) (x : ℚ) (r : List ℚ) :
    (l ++ x :: r).take (l.length + 1) = l ++ [x] := by
  rw [List.take_append_eq_append_take]
  simp

theorem windowAux_eq (rest : List ℚ) : ∀ (win : List ℚ), win ≠ [] →
    windowAux win rest =
      (List.range rest.length).map
        (fun j => ((win ++ rest).drop (j + 1)).take win.length) := by
  induction rest with
  | nil => intro win _; simp [windowAux]
  | cons e rest ih =>
    intro win hwin
    obtain ⟨w, ws, rfl⟩ := List.exists_cons_of_ne_nil hwin
    have hstep : (w :: ws).drop 1 ++ [e] = ws ++ [e] := by simp
    rw [windowAux, hstep, ih (ws ++ [e]) (by simp)]
    have hL : (e :: rest).length = rest.length + 1 := rfl
    rw [hL, List.range_succ_eq_map]
    simp only [List.map_cons, List.map_map]
    refine List.cons_eq_cons.mpr ⟨?_, ?_⟩
    · have : ((w :: ws) ++ e :: rest).drop (0 + 1) = ws ++ e :: rest := by simp
      rw [this]
      have hlc : (w :: ws).length = ws.length + 1 := rfl
      rw [hlc, take_len_succ_append]
    · apply List.map_congr_left
      intro j _
      simp only [Function.comp_apply]
      have hlen : (ws ++ [e]).length = (w :: ws).length := by simp
      rw [hlen]
      congr 1
      have : (ws ++ [e]) ++ rest = ((w :: ws) ++ (e :: rest)).drop 1 := by simp
      rw [this, List.drop_drop]
      congr 1
      omega

/-- Closed form of the sliding-window generator for positive sizes:
window `k` is exactly columns `[k, k+s)` of the profile. -/
theorem window_eq_map (l : List ℚ) (s : ℕ) (hs : 1 ≤ s) (hsl : s ≤ l.length) :
    window l s =
      (List.range (l.length + 1 - s)).map (fun k => (l.drop k).take s) := by
  have hT : (l.take s).length = s := by rw [List.length_take]; omega
  have htake : l.take s ≠ [] := by
    intro h
    rw [h] at hT
    simp at hT
    omega
  rw [window, if_pos hsl, windowAux_eq _ _ htake]
  have hlen : (l.drop s).length = l.length - s := by simp
  have happ : l.take s ++ l.drop s = l := List.take_append_drop s l
  have hrange : l.length + 1 - s = (l.length - s) + 1 := by omega
  rw [hrange, List.range_succ_eq_map]
  simp only [List.map_cons, List.map_map]
  refine List.cons_eq_cons.mpr ⟨?_, ?_⟩
  · simp
  · rw [hlen]
    apply List.map_congr_left
    intro j _
    simp only [Function.comp_apply, happ, hT]

/-- One `slidingdata` object (lines 250-257): the recorded passing
window.  The Python code stores `location` as the string `'n:n+i'`,
later split on `':'` and parsed back by `int` in `Probes.probes`
(line 301); we embed the round-tripped pair of offsets directly. -/
structure SlidingData where
  location : ℕ × ℕ
  min : ℚ
  mean : ℚ
  sequence : List Char
deriving Repr, DecidableEq

/-- One `windowdata` object (lines 238-241): the per-size result.
`min` is `none` while the `windowdata.min` attribute is unset (it is
only ever assigned at line 262). -/
structure WindowData where
  size : ℕ
  max : ℚ
  min : Option ℚ
  sliding : List SlidingData
deriving Repr, DecidableEq

/-- The `slidingdata` object built at lines 254-257 for the window with
start offset `n`: location `n:n+size`, the window's minimum, its mean
(`numpy.mean` rounded via `'{:.2f}'`), and the consensus slice
`consensus[n:n+size]`. -/
def mkSlide (cons : List Char) (size n : ℕ) (w : List ℚ) : SlidingData :=
  ⟨(n, n + size), listMin w, roundTo2 (w.sum / (w.length : ℚ)),
    pySlice cons n (n + size)⟩

/-- The window loop of `Probes.probefinder` (lines 248-267): walk the
sliding windows with offset counter `n`, and for each window whose
minimum strictly exceeds the cutoff (line 252), append a `slidingdata`
object and update `windowdata.max` / `windowdata.min` (lines 258-265).
Note `windowdata.min` is compared against the freshly-updated
`windowdata.max`, so its else-branch (reading a possibly-unset
attribute) is unreachable. -/
def scanWindows (cutoff : ℚ) (cons : List Char) (size : ℕ) :
    List (List ℚ) → ℕ → WindowData → WindowData
  | [], _, wd => wd
  | w :: ws, n, wd =>
    if cutoff < listMin w then
      let sd := mkSlide cons size n w
      let newMax := if wd.max ≤ sd.mean then sd.mean else wd.max
      let newMin := if sd.mean ≤ newMax then some sd.mean else wd.min
      scanWindows cutoff cons size ws (n + 1)
        ⟨wd.size, newMax, newMin, wd.sliding ++ [sd]⟩
    else scanWindows cutoff cons size ws (n + 1) wd

/-- The `windowdata` object produced for one candidate size (lines
238-267): fields `size`, `max := 0`, `min` unset, `sliding := []`,
then the window scan. -/
def sizeResult (identity : List ℚ) (cons : List Char) (cutoff : ℚ)
    (size : ℕ) : WindowData :=
  scanWindows cutoff cons size (window identity size) 0 ⟨size, 0, none, []⟩

/-- The size loop of `Probes.probefinder` (lines 233-269): sizes are
visited in the given order, each size is evaluated only while
`passing` is false, the produced `windowdata` is appended to
`metadata.windows`, and `passing` becomes true as soon as some window
of the current size passed (line 266). -/
def probefinderLoop (identity : List ℚ) (cons : List Char) (cutoff : ℚ) :
    List ℕ → Bool → List WindowData
  | [], _ => []
  | i :: rest, passing =>
    if passing then probefinderLoop identity cons cutoff rest passing
    else
      sizeResult identity cons cutoff i ::
        probefinderLoop identity cons cutoff rest
          ((sizeResult identity cons cutoff i).sliding ≠ [] : Bool)

/-- `reversed(range(min, max + 1))` (line 236): the candidate sizes in
descending order, `max` first; empty when `min > max`. -/
def descSizes (minS maxS : ℕ) : List ℕ :=
  (List.range' minS (maxS + 1 - minS)).reverse

/-- `metadata.windows` for one gene after `Probes.probefinder`
(lines 229-269). -/
def probefinderGene (identity : List ℚ) (cons : List Char) (cutoff : ℚ)
    (minS maxS : ℕ) : List WindowData :=
  probefinderLoop identity cons cutoff (descSizes minS maxS) false

/-- The inner condition and first-match flag of `Probes.probe_location`
(lines 286-293): within one `windowdata`, the first `sliding` object
with data whose mean equals `window.max` and is at least `window.min`.
Every recorded `sliding` object has a populated `datastore` (lines
254-257), so the `sliding.datastore` truthiness test of line 290 is
true for every element scanned here; comparing against an unset
`window.min` would raise, embedded as `false` (proved unreachable:
`min` is set whenever `sliding` is nonempty). -/
def windowWinner (wd : WindowData) : Option SlidingData :=
  wd.sliding.find? (fun sd =>
    sd.mean == wd.max && (wd.min.elim false (fun m => m ≤ sd.mean)))

/-- The per-gene part of `Probes.probe_location` (lines 282-293):
iterate the `windowdata` objects; whenever one yields a winner,
overwrite `sample.location` (the accumulator) with its location. -/
def probeLocationGene (wds : List WindowData) (acc : Option (ℕ × ℕ)) :
    Option (ℕ × ℕ) :=
  wds.foldl (fun a wd =>
    match windowWinner wd with
    | some sd => some sd.location
    | none => a) acc

/-- `Probes.probe_location` for one sample (lines 280-293): the gene
loop threads the single `sample.location` attribute through every
gene; `none` models the attribute never having been assigned. -/
def probeLocationSample (genes : List (List WindowData)) : Option (ℕ × ℕ) :=
  genes.foldl (fun acc wds => probeLocationGene wds acc) none

/-- The only failure mode of the embedded pipeline: `Probes.probes`
reading `sample.location` (line 301) when `probe_location` never
assigned it, which raises a lookup error in Python. -/
inductive ExtractError where
  | missingLocation
deriving Repr, DecidableEq

/-- `Probes.probes` for one sample (lines 299-306): split the recorded
location into `start`/`stop` and collect `allele[start:stop]` over the
allele set into the set `sample.probeallele`.  When `sample.location`
was never assigned, the attribute access itself raises (modelled as
`ExtractError.missingLocation`). -/
def probesSample (loc : Option (ℕ × ℕ)) (alleleset : Finset (List Char)) :
    Except ExtractError (Finset (List Char)) :=
  match loc with
  | none => Except.error ExtractError.missingLocation
  | some (start, stop) => Except.ok (alleleset.image (fun a => pySlice a start stop))

/-- The extraction set built at lines 305-306, in isolation: the image
of the allele set under the slice `[start:stop]`. -/
def probeExtractSet (alleleset : Finset (List Char)) (start stop : ℕ) :
    Finset (List Char) :=
  alleleset.image (fun a => pySlice a start stop)

/-- Number of rows at column `j` showing character `b`: the per-column
count stored in the PSSM consumed at lines 219-227.  (A count is
present in a PSSM line exactly for the characters occurring somewhere
in the alignment; the code indexes `'A'`, `'C'`, `'G'`, `'T'`
unconditionally and `'-'` under `try`, so only the presence of `'-'`
is branched on.) -/
def countBase (rows : List (List Char)) (j : ℕ) (b : Char) : ℕ :=
  rows.countP (fun r => r[j]? == some b)

/-- Whether the gap symbol occurs anywhere in the alignment: exactly
when the PSSM lines carry a `'-'` key, i.e. when line 221 does not
raise `KeyError`. -/
def hasGap (rows : List (List Char)) : Bool :=
  rows.any (fun r => r.any (fun ch => ch == '-'))

/-- The per-column identity of lines 219-227: the most frequent of the
four bases over the sum of base (and, when present, gap) counts, times
100, rounded to two decimals.  `ℚ` division by zero yields `0` where
Python would raise on an all-uninformative column. -/
def colIdentity (rows : List (List Char)) (j : ℕ) : ℚ :=
  let a := countBase rows j 'A'
  let c := countBase rows j 'C'
  let g := countBase rows j 'G'
  let t := countBase rows j 'T'
  let m : ℕ := max (max a c) (max g t)
  if hasGap rows then
    let d := countBase rows j '-'
    roundTo2 ((m : ℚ) / ((a + c + g + t + d : ℕ) : ℚ) * 100)
  else
    roundTo2 ((m : ℚ) / ((a + c + g + t : ℕ) : ℚ) * 100)

/-- `max(len(record.seq) for record in records)` (line 195), with `0`
for an empty record list. -/
def maxRowLen (rows : List (List Char)) : ℕ :=
  rows.foldr (fun r m => max r.length m) 0

/-- `metadata.identity` (lines 217-227): one identity value per
alignment column. -/
def identityProfile (rows : List (List Char)) : List ℚ :=
  (List.range (maxRowLen rows)).map (colIdentity rows)

/-- Python's `str.ljust(n, c)` (line 199): pad on the right with `c`
up to width `n`; longer strings are returned unchanged. -/
def ljust (r : List Char) (n : ℕ) (c : Char) : List Char :=
  r ++ List.replicate (n - r.length) c

/-- The padding loop of lines 197-200: rows whose length differs from
the maximum are right-padded with the `'.'` sentinel. -/
def padRecords (rows : List (List Char)) : List (List Char) :=
  rows.map (fun r =>
    if r.length ≠ maxRowLen rows then ljust r (maxRowLen rows) '.' else r)

/-- The failure of the alignment-consistency assertion of line 201. -/
inductive AlignError where
  | alignmentInconsistency
deriving Repr, DecidableEq

/-- The assertion `all(len(record.seq) == maxlen for record in
records)` of line 201: rows of unequal length after padding abort the
gene's pipeline rather than silently proceeding. -/
def checkSameLength (maxlen : ℕ) (rws : List (List Char)) :
    Except AlignError (List (List Char)) :=
  if rws.all (fun r => r.length == maxlen) then Except.ok rws
  else Except.error AlignError.alignmentInconsistency

/-- Lines 195-201 as one step: compute the maximum row length, pad,
then assert equal lengths. -/
def padAndCheck (rows : List (List Char)) :
    Except AlignError (List (List Char)) :=
  checkSameLength (maxRowLen rows) (padRecords rows)

/-- Modelled from the spec's words (§3, ConservationProfile): value at
a column is the count of the most frequent base among A, C, G, T,
divided by the total observations at the column — gap counts included
in the denominator when a gap symbol is present, excluded from the
numerator — times 100, rounded to two decimal places.  Used only as
the specification side of the refinement proved for the profile
builder. -/
def specColumnValue (a c g t : ℕ) (gap : Option ℕ) : ℚ :=
  let m : ℕ := max (max a c) (max g t)
  let denom : ℕ := a + c + g + t + gap.getD 0
  roundTo2 ((m : ℚ) / (denom : ℚ) * 100)

theorem foldl_min_le (t : List ℚ) :
    ∀ a : ℚ, t.foldl min a ≤ a ∧ ∀ x ∈ t, t.foldl min a ≤ x := by
  induction t with
  | nil => intro a; exact ⟨le_refl a, by simp⟩
  | cons h t ih =>
    intro a
    have hih := ih (min a h)
    refine ⟨le_trans hih.1 (min_le_left a h), ?_⟩
    intro x hx
    rcases List.mem_cons.mp hx with rfl | hx
    · exact le_trans hih.1 (min_le_right a x)
    · exact hih.2 x hx

theorem listMin_le (l : List ℚ) (x : ℚ) (hx : x ∈ l) : listMin l ≤ x := by
  cases l with
  | nil => cases hx
  | cons h t =>
    rcases List.mem_cons.mp hx with rfl | hx
    · exact (foldl_min_le t x).1
    · exact (foldl_min_le t h).2 x hx

theorem roundTo2_nonneg (q : ℚ) (h : 0 ≤ q) : 0 ≤ roundTo2 q := by
  unfold roundTo2
  have h1 : (0 : ℤ) ≤ round (q * 100) := by
    rw [round_eq]
    exact Int.le_floor.mpr (by push_cast; linarith)
  have h2 : (0 : ℚ) ≤ ((round (q * 100) : ℤ) : ℚ) := by exact_mod_cast h1
  exact div_nonneg h2 (by norm_num)

theorem roundTo2_le_100 (q : ℚ) (h : q ≤ 100) : roundTo2 q ≤ 100 := by
  unfold roundTo2
  have h1 : round (q * 100) ≤ (10000 : ℤ) := by
    rw [round_eq]
    have hlt : q * 100 + 1 / 2 < ((10001 : ℤ) : ℚ) := by push_cast; linarith
    have := Int.floor_lt.mpr hlt
    omega
  have h2 : ((round (q * 100) : ℤ) : ℚ) ≤ 10000 := by exact_mod_cast h1
  linarith

theorem mean_pos_of_min_pos (w : List ℚ) (hw : w ≠ []) (hmin : 0 < listMin w) :
    0 < w.sum / (w.length : ℚ) := by
  have hx : ∀ x ∈ w, 0 < x := fun x hx => lt_of_lt_of_le hmin (listMin_le w x hx)
  have hsum : 0 < w.sum := List.sum_pos w hx hw
  have hlen : (0 : ℚ) < (w.length : ℚ) := by
    have := List.length_pos.mpr hw
    exact_mod_cast this
  exact div_pos hsum hlen

/-- C3: for every profile of length `L` and every window size `s ≥ 1`,
the sliding-window scanner produces exactly `max(0, L − s + 1)` windows
(written `L + 1 − s` in truncated ℕ subtraction), each of length
exactly `s`, where window `k` covers columns `[k, k+s)`; in particular
when `s > L` it produces zero windows and does not fail. -/
theorem C3_sliding_window_shape (l : List ℚ) (s : ℕ) (hs : 1 ≤ s) :
    (window l s).length = l.length + 1 - s ∧
    (∀ w ∈ window l s, w.length = s) ∧
    ∀ k (hk : k < (window l s).length),
      (window l s).get ⟨k, hk⟩ = (l.drop k).take s := by
  by_cases hsl : s ≤ l.length
  · have hmap := window_eq_map l s hs hsl
    refine ⟨by rw [hmap]; simp, ?_, ?_⟩
    · intro w hw
      rw [hmap] at hw
      simp only [List.mem_map, List.mem_range] at hw
      obtain ⟨k, hk, rfl⟩ := hw
      rw [List.length_take, List.length_drop]
      omega
    · intro k hk
      have hk' : k < ((List.range (l.length + 1 - s)).map
          (fun j => (l.drop j).take s)).length := by rw [← hmap]; exact hk
      calc (window l s).get ⟨k, hk⟩
          = ((List.range (l.length + 1 - s)).map
              (fun j => (l.drop j).take s)).get ⟨k, hk'⟩ :=
            List.get_of_eq hmap ⟨k, hk⟩
        _ = (l.drop k).take s := by
            simp only [List.get_eq_getElem, List.getElem_map, List.getElem_range]
  · have hnil : window l s = [] := by rw [window, if_neg hsl]
    refine ⟨?_, ?_, ?_⟩
    · rw [hnil]; simp; omega
    · intro w hw; rw [hnil] at hw; cases hw
    · intro k hk; rw [hnil] at hk; simp at hk

/-- Witness for C3 at profile `[1,2,3]`, size 2. -/
theorem C3_sliding_window_shape_witness :
    1 ≤ 2 ∧
    ((window [(1 : ℚ), 2, 3] 2).length = [(1 : ℚ), 2, 3].length + 1 - 2 ∧
      (∀ w ∈ window [(1 : ℚ), 2, 3] 2, w.length = 2) ∧
      ∀ k (hk : k < (window [(1 : ℚ), 2, 3] 2).length),
        (window [(1 : ℚ), 2, 3] 2).get ⟨k, hk⟩ = ([(1 : ℚ), 2, 3].drop k).take 2) :=
  ⟨by norm_num, C3_sliding_window_shape [(1 : ℚ), 2, 3] 2 (by norm_num)⟩

/-- The list of `slidingdata` objects appended by the window loop when
started at offset `n`: the pure content of `windowdata.sliding`. -/
def passSlides (cutoff : ℚ) (cons : List Char) (size : ℕ) :
    List (List ℚ) → ℕ → List SlidingData
  | [], _ => []
  | w :: ws, n =>
    if cutoff < listMin w then
      mkSlide cons size n w :: passSlides cutoff cons size ws (n + 1)
    else passSlides cutoff cons size ws (n + 1)

theorem scanWindows_sliding (cutoff : ℚ) (cons : List Char) (size : ℕ) :
    ∀ (ws : List (List ℚ)) (n : ℕ) (wd : WindowData),
      (scanWindows cutoff cons size ws n wd).sliding =
        wd.sliding ++ passSlides cutoff cons size ws n := by
  intro ws
  induction ws with
  | nil => intro n wd; simp [scanWindows, passSlides]
  | cons w ws ih =>
    intro n wd
    by_cases h : cutoff < listMin w
    · simp only [scanWindows, passSlides, if_pos h, ih]
      simp
    · simp only [scanWindows, passSlides, if_neg h, ih]

theorem scanWindows_size (cutoff : ℚ) (cons : List Char) (size : ℕ) :
    ∀ (ws : List (List ℚ)) (n : ℕ) (wd : WindowData),
      (scanWindows cutoff cons size ws n wd).size = wd.size := by
  intro ws
  induction ws with
  | nil => intro n wd; simp [scanWindows]
  | cons w ws ih =>
    intro n wd
    by_cases h : cutoff < listMin w
    · simp only [scanWindows, if_pos h, ih]
    · simp only [scanWindows, if_neg h, ih]

theorem passSlides_mem (cutoff : ℚ) (cons : List Char) (size : ℕ) :
    ∀ (ws : List (List ℚ)) (n : ℕ) (sd : SlidingData),
      sd ∈ passSlides cutoff cons size ws n ↔
        ∃ j, ∃ hj : j < ws.length,
          cutoff < listMin (ws.get ⟨j, hj⟩) ∧
          sd = mkSlide cons size (n + j) (ws.get ⟨j, hj⟩) := by
  intro ws
  induction ws with
  | nil => intro n sd; simp [passSlides]
  | cons w ws ih =>
    intro n sd
    constructor
    · intro hmem
      by_cases h : cutoff < listMin w
      · rw [passSlides, if_pos h] at hmem
        rcases List.mem_cons.mp hmem with rfl | hmem
        · exact ⟨0, by simp, by simpa using h, by simp⟩
        · obtain ⟨j, hj, hpass, rfl⟩ := (ih (n + 1) _).mp hmem
          refine ⟨j + 1, by simpa using hj, by simpa using hpass, ?_⟩
          simp [Nat.add_assoc, Nat.add_comm 1 j]
      · rw [passSlides, if_neg h] at hmem
        obtain ⟨j, hj, hpass, rfl⟩ := (ih (n + 1) _).mp hmem
        refine ⟨j + 1, by simpa using hj, by simpa using hpass, ?_⟩
        simp [Nat.add_assoc, Nat.add_comm 1 j]
    · rintro ⟨j, hj, hpass, rfl⟩
      cases j with
      | zero =>
        have h : cutoff < listMin w := by simpa using hpass
        rw [passSlides, if_pos h]
        simp
      | succ j =>
        have hj' : j < ws.length := by simpa using hj
        have hmem : mkSlide cons size ((n + 1) + j) (ws.get ⟨j, hj'⟩) ∈
            passSlides cutoff cons size ws (n + 1) :=
          (ih (n + 1) _).mpr ⟨j, hj', by simpa using hpass, rfl⟩
        have harith : (n + 1) + j = n + (j + 1) := by omega
        rw [harith] at hmem
        by_cases h : cutoff < listMin w
        · rw [passSlides, if_pos h]
          exact List.mem_cons_of_mem _ (by simpa using hmem)
        · rw [passSlides, if_neg h]
          simpa using hmem

/-- The invariant connecting `windowdata.max`, `windowdata.min` and
`windowdata.sliding` maintained by the window loop: `max` bounds every
recorded mean and is attained when any window passed, and `min` is set
(to the mean of the last passing window) whenever any window passed. -/
def WDInv (wd : WindowData) : Prop :=
  0 ≤ wd.max ∧ (wd.sliding = [] → wd.max = 0) ∧
  (∀ sd ∈ wd.sliding, 0 ≤ sd.mean ∧ sd.mean ≤ wd.max) ∧
  (wd.sliding ≠ [] → (∃ sd ∈ wd.sliding, sd.mean = wd.max) ∧
    ∃ m, wd.min = some m ∧ m ≤ wd.max)

theorem scanWindows_inv (cutoff : ℚ) (cons : List Char) (size : ℕ)
    (hcut : 0 ≤ cutoff) :
    ∀ (ws : List (List ℚ)) (n : ℕ) (wd : WindowData), WDInv wd →
      WDInv (scanWindows cutoff cons size ws n wd) := by
  intro ws
  induction ws with
  | nil => intro n wd h; simpa [scanWindows] using h
  | cons w ws ih =>
    intro n wd hInv
    obtain ⟨hmax0, hempty, hbound, hfull⟩ := hInv
    by_cases h : cutoff < listMin w
    · rw [scanWindows, if_pos h]
      apply ih
      have hwne : w ≠ [] := by
        intro hw
        rw [hw] at h
        simp [listMin] at h
        linarith
      have hmean : 0 ≤ (mkSlide cons size n w).mean := by
        have hpos : 0 < w.sum / (w.length : ℚ) :=
          mean_pos_of_min_pos w hwne (lt_of_le_of_lt hcut h)
        exact roundTo2_nonneg _ (le_of_lt hpos)
      set sd := mkSlide cons size n w with hsd
      by_cases hle : wd.max ≤ sd.mean
      · rw [if_pos hle, if_pos (le_refl sd.mean)]
        refine ⟨hmean, by simp, ?_, ?_⟩
        · intro sd' hsd'
          rcases List.mem_append.mp hsd' with hsd' | hsd'
          · exact ⟨(hbound sd' hsd').1, le_trans (hbound sd' hsd').2 hle⟩
          · rcases List.mem_singleton.mp hsd' with rfl
            exact ⟨hmean, le_refl _⟩
        · intro _
          exact ⟨⟨sd, by simp, rfl⟩, sd.mean, rfl, le_refl _⟩
      · have hlt : sd.mean < wd.max := lt_of_not_le hle
        rw [if_neg hle, if_pos (le_of_lt hlt)]
        have hold : wd.sliding ≠ [] := by
          intro hnil
          rw [hempty hnil] at hlt
          linarith
        obtain ⟨⟨sd₀, hsd₀, hsd₀max⟩, _⟩ := hfull hold
        refine ⟨hmax0, by simp, ?_, ?_⟩
        · intro sd' hsd'
          rcases List.mem_append.mp hsd' with hsd' | hsd'
          · exact hbound sd' hsd'
          · rcases List.mem_singleton.mp hsd' with rfl
            exact ⟨hmean, le_of_lt hlt⟩
        · intro _
          exact ⟨⟨sd₀, List.mem_append_left _ hsd₀, hsd₀max⟩,
            sd.mean, rfl, le_of_lt hlt⟩
    · rw [scanWindows, if_neg h]
      exact ih _ _ ⟨hmax0, hempty, hbound, hfull⟩

theorem sizeResult_inv (identity : List ℚ) (cons : List Char) (cutoff : ℚ)
    (size : ℕ) (hcut : 0 ≤ cutoff) :
    WDInv (sizeResult identity cons cutoff size) := by
  apply scanWindows_inv cutoff cons size hcut
  exact ⟨le_refl 0, fun _ => rfl, by simp, by simp⟩

theorem sizeResult_sliding (identity : List ℚ) (cons : List Char)
    (cutoff : ℚ) (size : ℕ) :
    (sizeResult identity cons cutoff size).sliding =
      passSlides cutoff cons size (window identity size) 0 := by
  rw [sizeResult, scanWindows_sliding]
  rfl

theorem sizeResult_size (identity : List ℚ) (cons : List Char)
    (cutoff : ℚ) (size : ℕ) :
    (sizeResult identity cons cutoff size).size = size := by
  rw [sizeResult, scanWindows_size]

theorem probefinderLoop_true (identity : List ℚ) (cons : List Char)
    (cutoff : ℚ) : ∀ sizes : List ℕ,
    probefinderLoop identity cons cutoff sizes true = [] := by
  intro sizes
  induction sizes with
  | nil => rfl
  | cons i rest ih => rw [probefinderLoop, if_pos rfl]; exact ih

theorem probefinderLoop_sizes (identity : List ℚ) (cons : List Char)
    (cutoff : ℚ) : ∀ sizes : List ℕ,
    (probefinderLoop identity cons cutoff sizes false).map WindowData.size =
      sizes.take (probefinderLoop identity cons cutoff sizes false).length := by
  intro sizes
  induction sizes with
  | nil => rfl
  | cons i rest ih =>
    rw [probefinderLoop, if_neg (by simp)]
    by_cases hb : (sizeResult identity cons cutoff i).sliding = []
    · have hcond : ((sizeResult identity cons cutoff i).sliding ≠ [] : Bool) = false := by
        simp [hb]
      rw [hcond]
      simp only [List.map_cons, List.length_cons, List.take_succ_cons, ih]
      rw [sizeResult_size]
    · have hcond : ((sizeResult identity cons cutoff i).sliding ≠ [] : Bool) = true := by
        simp [hb]
      rw [hcond, probefinderLoop_true]
      simp [sizeResult_size]

theorem probefinderLoop_dropLast (identity : List ℚ) (cons : List Char)
    (cutoff : ℚ) : ∀ sizes : List ℕ,
    ∀ wd ∈ (probefinderLoop identity cons cutoff sizes false).dropLast,
      wd.sliding = [] := by
  intro sizes
  induction sizes with
  | nil => intro wd h; simp [probefinderLoop] at h
  | cons i rest ih =>
    intro wd h
    rw [probefinderLoop, if_neg (by simp)] at h
    by_cases hb : (sizeResult identity cons cutoff i).sliding = []
    · have hcond : ((sizeResult identity cons cutoff i).sliding ≠ [] : Bool) = false := by
        simp [hb]
      rw [hcond] at h
      cases htail : probefinderLoop identity cons cutoff rest false with
      | nil => rw [htail] at h; simp at h
      | cons wd' tail' =>
        rw [htail, List.dropLast_cons_of_ne_nil (by simp)] at h
        rcases List.mem_cons.mp h with rfl | h
        · exact hb
        · exact ih wd (by rw [htail]; exact h)
    · have hcond : ((sizeResult identity cons cutoff i).sliding ≠ [] : Bool) = true := by
        simp [hb]
      rw [hcond, probefinderLoop_true] at h
      simp at h

theorem probefinderLoop_mem (identity : List ℚ) (cons : List Char)
    (cutoff : ℚ) : ∀ (sizes : List ℕ) (b : Bool) (wd : WindowData),
    wd ∈ probefinderLoop identity cons cutoff sizes b →
      ∃ i ∈ sizes, wd = sizeResult identity cons cutoff i := by
  intro sizes
  induction sizes with
  | nil => intro b wd h; simp [probefinderLoop] at h
  | cons i rest ih =>
    intro b wd h
    cases b with
    | true => rw [probefinderLoop_true] at h; cases h
    | false =>
      rw [probefinderLoop, if_neg (by simp)] at h
      rcases List.mem_cons.mp h with rfl | h
      · exact ⟨i, List.mem_cons_self i rest, rfl⟩
      · obtain ⟨i', hi', rfl⟩ := ih _ wd h
        exact ⟨i', List.mem_cons_of_mem i hi', rfl⟩

theorem round_eval (q : ℚ) (z : ℤ) (h1 : (z : ℚ) ≤ q + 1 / 2)
    (h2 : q + 1 / 2 < z + 1) : round q = z := by
  rw [round_eq, Int.floor_eq_iff]
  exact ⟨h1, h2⟩

theorem roundTo2_eval (q : ℚ) (z : ℤ) (h1 : (z : ℚ) ≤ q * 100 + 1 / 2)
    (h2 : q * 100 + 1 / 2 < z + 1) : roundTo2 q = (z : ℚ) / 100 := by
  rw [roundTo2, round_eval (q * 100) z h1 h2]

/-- Concrete run used by several witnesses: on the conservation profile
`[90, 90, 50]` with cutoff 70, size 3 has no passing window. -/
theorem sizeResult_eval_3 :
    sizeResult [(90 : ℚ), 90, 50] ['A', 'C', 'G'] 70 3 = ⟨3, 0, none, []⟩ := by
  have hmin : listMin [(90 : ℚ), 90, 50] = 50 := by
    simp [listMin]
    norm_num [min_def]
  rw [sizeResult]
  norm_num [window, windowAux, scanWindows, hmin]

/-- Concrete run used by several witnesses: on the conservation profile
`[90, 90, 50]` with cutoff 70, size 2 records exactly the window at
offset 0 with mean 90 and consensus slice `AC`. -/
theorem sizeResult_eval_2 :
    sizeResult [(90 : ℚ), 90, 50] ['A', 'C', 'G'] 70 2 =
      ⟨2, 90, some 90, [⟨(0, 2), 90, 90, ['A', 'C']⟩]⟩ := by
  have hmin1 : listMin [(90 : ℚ), 90] = 90 := by simp [listMin]
  have hmin2 : listMin [(90 : ℚ), 50] = 50 := by
    simp [listMin]
    norm_num [min_def]
  have hmean : roundTo2 (90 : ℚ) = 90 := by
    have := roundTo2_eval (90 : ℚ) 9000 (by norm_num) (by norm_num)
    rw [this]
    norm_num
  rw [sizeResult]
  norm_num [window, windowAux, scanWindows, hmin1, hmin2, mkSlide, pySlice, hmean]

/-- Concrete run used by several witnesses: `metadata.windows` for the
profile `[90, 90, 50]`, consensus `ACG`, cutoff 70, sizes 2..3. -/
theorem probefinderGene_eval :
    probefinderGene [(90 : ℚ), 90, 50] ['A', 'C', 'G'] 70 2 3 =
      [⟨3, 0, none, []⟩, ⟨2, 90, some 90, [⟨(0, 2), 90, 90, ['A', 'C']⟩]⟩] := by
  have hsizes : descSizes 2 3 = [3, 2] := by decide
  rw [probefinderGene, hsizes, probefinderLoop, if_neg (by simp), sizeResult_eval_3]
  rw [probefinderLoop, if_neg (by simp), sizeResult_eval_2]
  rfl

/-- C4: for every gene, candidate sizes are evaluated in descending
order from `max_size` to `min_size` (the produced `windowdata` objects
carry, in order, a prefix of the strictly descending size list), and
once some size yields a passing window no smaller size is evaluated
and contributes an entry: every produced entry other than the last has
an empty passing set, so a passing window is never recorded at a size
below one that already passed. -/
theorem C4_descending_stop_on_success (identity : List ℚ) (cons : List Char)
    (cutoff : ℚ) (minS maxS : ℕ) :
    (descSizes minS maxS).Pairwise (fun a b => b < a) ∧
    ((probefinderGene identity cons cutoff minS maxS).map WindowData.size =
      (descSizes minS maxS).take
        (probefinderGene identity cons cutoff minS maxS).length) ∧
    ∀ wd ∈ (probefinderGene identity cons cutoff minS maxS).dropLast,
      wd.sliding = [] := by
  refine ⟨?_, probefinderLoop_sizes identity cons cutoff _,
    probefinderLoop_dropLast identity cons cutoff _⟩
  rw [descSizes, List.pairwise_reverse]
  exact List.pairwise_lt_range' minS (maxS + 1 - minS)

/-- Witness for C4 on the profile `[90, 90, 50]` with sizes `2..3` and
cutoff 70: size 3 fails, size 2 passes, and the size-3 entry (the only
non-last entry) has an empty passing set. -/
theorem C4_descending_stop_on_success_witness :
    (descSizes 2 3).Pairwise (fun a b => b < a) ∧
    (WindowData.mk 3 0 none []).sliding = [] :=
  ⟨(C4_descending_stop_on_success [(90 : ℚ), 90, 50] ['A', 'C', 'G'] 70 2 3).1,
    (C4_descending_stop_on_success [(90 : ℚ), 90, 50] ['A', 'C', 'G'] 70 2 3).2.2
      ⟨3, 0, none, []⟩ (by rw [probefinderGene_eval]; simp)⟩

/-- C5: a window (the one starting at column `n`, recorded with
half-open location `(n, n+s)`) is recorded as passing iff the minimum
identity inside it strictly exceeds the cutoff; a window whose minimum
equals the cutoff exactly is not recorded. -/
theorem C5_pass_iff_min_exceeds_cutoff (identity : List ℚ) (cons : List Char)
    (cutoff : ℚ) (s n : ℕ) (hn : n < (window identity s).length) :
    (∃ sd ∈ (sizeResult identity cons cutoff s).sliding,
        sd.location = (n, n + s)) ↔
      cutoff < listMin ((window identity s).get ⟨n, hn⟩) := by
  rw [sizeResult_sliding]
  constructor
  · rintro ⟨sd, hmem, hloc⟩
    obtain ⟨j, hj, hpass, rfl⟩ :=
      (passSlides_mem cutoff cons s (window identity s) 0 sd).mp hmem
    have hjn : j = n := by
      have := congrArg Prod.fst hloc
      simpa [mkSlide] using this
    subst hjn
    exact hpass
  · intro hpass
    refine ⟨mkSlide cons s n ((window identity s).get ⟨n, hn⟩), ?_, by simp [mkSlide]⟩
    exact (passSlides_mem cutoff cons s (window identity s) 0 _).mpr
      ⟨n, hn, hpass, by simp⟩

/-- Witness for C5 at profile `[80, 50]`, size 1, window 0 (passes at
cutoff 70) — and the boundary case is covered by the strict `<`. -/
theorem C5_pass_iff_min_exceeds_cutoff_witness :
    0 < (window [(80 : ℚ), 50] 1).length ∧
    ((∃ sd ∈ (sizeResult [(80 : ℚ), 50] ['A', 'C'] 70 1).sliding,
        sd.location = (0, 0 + 1)) ↔
      (70 : ℚ) < listMin ((window [(80 : ℚ), 50] 1).get ⟨0, by decide⟩)) :=
  ⟨by decide, C5_pass_iff_min_exceeds_cutoff [(80 : ℚ), 50] ['A', 'C'] 70 1 0 (by decide)⟩

/-- C7: for every window recorded by the probe search (the winner in
particular), slicing the recorded half-open range `[start:stop]` out
of the consensus sequence yields exactly the recorded `sequence`
field. -/
theorem C7_roundtrip_consensus_slice (identity : List ℚ) (cons : List Char)
    (cutoff : ℚ) (minS maxS : ℕ) (wd : WindowData)
    (hwd : wd ∈ probefinderGene identity cons cutoff minS maxS)
    (sd : SlidingData) (hsd : sd ∈ wd.sliding) :
    pySlice cons sd.location.1 sd.location.2 = sd.sequence := by
  obtain ⟨i, _, rfl⟩ := probefinderLoop_mem identity cons cutoff _ _ wd hwd
  rw [sizeResult_sliding] at hsd
  obtain ⟨j, hj, _, rfl⟩ :=
    (passSlides_mem cutoff cons i (window identity i) 0 sd).mp hsd
  simp [mkSlide]

/-- Witness for C7: the recorded window of the run on profile
`[90, 90, 50]`, consensus `ACG`, sizes `2..3`, cutoff 70. -/
theorem C7_roundtrip_consensus_slice_witness :
    pySlice ['A', 'C', 'G']
        (SlidingData.mk (0, 2) 90 90 ['A', 'C']).location.1
        (SlidingData.mk (0, 2) 90 90 ['A', 'C']).location.2 =
      (SlidingData.mk (0, 2) 90 90 ['A', 'C']).sequence :=
  C7_roundtrip_consensus_slice [(90 : ℚ), 90, 50] ['A', 'C', 'G'] 70 2 3
    ⟨2, 90, some 90, [⟨(0, 2), 90, 90, ['A', 'C']⟩]⟩
    (by rw [probefinderGene_eval]
        exact List.mem_cons_of_mem _ (List.mem_cons_self _ _))
    ⟨(0, 2), 90, 90, ['A', 'C']⟩ (List.mem_cons_self _ _)

theorem find?_congr_beq {α : Type} (l : List α) (p q : α → Bool)
    (h : ∀ x ∈ l, p x = q x) : l.find? p = l.find? q := by
  induction l with
  | nil => rfl
  | cons a l ih =>
    rw [List.find?_cons, List.find?_cons, h a (List.mem_cons_self a l)]
    cases q a with
    | true => rfl
    | false => exact ih (fun x hx => h x (List.mem_cons_of_mem a hx))

theorem probeLocationGene_all_empty (wds : List WindowData)
    (h : ∀ wd ∈ wds, wd.sliding = []) :
    ∀ acc : Option (ℕ × ℕ), probeLocationGene wds acc = acc := by
  induction wds with
  | nil => intro acc; rfl
  | cons wd wds ih =>
    intro acc
    have hw : windowWinner wd = none := by
      rw [windowWinner, h wd (List.mem_cons_self wd wds)]
      rfl
    rw [probeLocationGene, List.foldl_cons]
    simp only [hw]
    exact ih (fun wd' h' => h wd' (List.mem_cons_of_mem wd h')) acc

/-- C6: for the (largest-size) `windowdata` entry that contains passing
windows, the resolver selects the first window in left-to-right scan
order whose mean identity equals that entry's maximum mean
(`List.find?` returns the first match, so among windows tied at the
maximum mean the one with the smaller start offset wins and later
windows cannot change the selection), and records its location. -/
theorem C6_leftmost_best_mean (identity : List ℚ) (cons : List Char)
    (cutoff : ℚ) (minS maxS : ℕ) (hcut : 0 ≤ cutoff) (wd : WindowData)
    (hmem : wd ∈ probefinderGene identity cons cutoff minS maxS)
    (hne : wd.sliding ≠ []) :
    ∃ sd : SlidingData,
      wd.sliding.find? (fun x => x.mean == wd.max) = some sd ∧
      probeLocationGene (probefinderGene identity cons cutoff minS maxS) none =
        some sd.location := by
  have hInv : WDInv wd := by
    obtain ⟨i, _, rfl⟩ := probefinderLoop_mem identity cons cutoff _ _ wd hmem
    exact sizeResult_inv identity cons cutoff i hcut
  obtain ⟨hmax0, hemp, hbound, hfull⟩ := hInv
  obtain ⟨⟨sd₀, hsd₀, hsd₀eq⟩, m, hm, hmle⟩ := hfull hne
  have hcongr : windowWinner wd = wd.sliding.find? (fun x => x.mean == wd.max) := by
    rw [windowWinner]
    apply find?_congr_beq
    intro x _
    rw [hm]
    by_cases hxeq : x.mean = wd.max
    · simp [hxeq, hmle]
    · simp [hxeq]
  have hsome : (wd.sliding.find? (fun x => x.mean == wd.max)).isSome :=
    List.find?_isSome.mpr ⟨sd₀, hsd₀, by simp [hsd₀eq]⟩
  obtain ⟨sd, hsd⟩ := Option.isSome_iff_exists.mp hsome
  refine ⟨sd, hsd, ?_⟩
  have hout_ne : probefinderGene identity cons cutoff minS maxS ≠ [] :=
    List.ne_nil_of_mem hmem
  have hdecomp : probefinderGene identity cons cutoff minS maxS =
      (probefinderGene identity cons cutoff minS maxS).dropLast ++
        [(probefinderGene identity cons cutoff minS maxS).getLast hout_ne] :=
    (List.dropLast_append_getLast hout_ne).symm
  have hlast : (probefinderGene identity cons cutoff minS maxS).getLast hout_ne = wd := by
    rcases List.mem_append.mp (hdecomp ▸ hmem) with hin | hin
    · exact absurd (probefinderLoop_dropLast identity cons cutoff _ wd hin) hne
    · exact (List.mem_singleton.mp hin).symm
  conv_lhs => rw [hdecomp, hlast]
  rw [probeLocationGene, List.foldl_append]
  have hempties := probeLocationGene_all_empty
    (probefinderGene identity cons cutoff minS maxS).dropLast
    (probefinderLoop_dropLast identity cons cutoff _) none
  rw [probeLocationGene] at hempties
  rw [hempties, List.foldl_cons, List.foldl_nil]
  have hw : windowWinner wd = some sd := by rw [hcongr]; exact hsd
  simp only [hw]

/-- Witness for C6 on the run over profile `[90, 90, 50]`, consensus
`ACG`, cutoff 70, sizes 2..3: the selected probe is the leftmost
best-mean window of the size-2 entry. -/
theorem C6_leftmost_best_mean_witness :
    (0 : ℚ) ≤ 70 ∧
    ∃ sd : SlidingData,
      (WindowData.mk 2 90 (some 90)
          [⟨(0, 2), 90, 90, ['A', 'C']⟩]).sliding.find?
        (fun x => x.mean ==
          (WindowData.mk 2 90 (some 90) [⟨(0, 2), 90, 90, ['A', 'C']⟩]).max) =
        some sd ∧
      probeLocationGene (probefinderGene [(90 : ℚ), 90, 50] ['A', 'C', 'G'] 70 2 3)
          none = some sd.location :=
  ⟨by norm_num,
    C6_leftmost_best_mean [(90 : ℚ), 90, 50] ['A', 'C', 'G'] 70 2 3 (by norm_num)
      ⟨2, 90, some 90, [⟨(0, 2), 90, 90, ['A', 'C']⟩]⟩
      (by rw [probefinderGene_eval]
          exact List.mem_cons_of_mem _ (List.mem_cons_self _ _))
      (by simp)⟩

theorem length_le_maxRowLen (rows : List (List Char)) :
    ∀ r ∈ rows, r.length ≤ maxRowLen rows := by
  induction rows with
  | nil => intro r h; cases h
  | cons a t ih =>
    intro r h
    rcases List.mem_cons.mp h with rfl | h
    · exact le_max_left _ _
    · exact le_trans (ih r h) (le_max_right _ _)

theorem maxRowLen_eq_of_all (M : ℕ) : ∀ rows : List (List Char), rows ≠ [] →
    (∀ r ∈ rows, r.length = M) → maxRowLen rows = M := by
  intro rows
  induction rows with
  | nil => intro h; cases h rfl
  | cons a t ih =>
    intro _ hall
    have ha : a.length = M := hall a (List.mem_cons_self a t)
    cases t with
    | nil => simp [maxRowLen, ha]
    | cons b t' =>
      have ht : maxRowLen (b :: t') = M :=
        ih (by simp) (fun r hr => hall r (List.mem_cons_of_mem a hr))
      have : maxRowLen (a :: b :: t') = max a.length (maxRowLen (b :: t')) := rfl
      rw [this, ha, ht, max_self]

theorem padRecords_eq_map (rows : List (List Char)) :
    padRecords rows =
      rows.map (fun r => r ++ List.replicate (maxRowLen rows - r.length) '.') := by
  rw [padRecords]
  apply List.map_congr_left
  intro r _
  by_cases h : r.length = maxRowLen rows
  · rw [if_neg (by simp [h]), h]
    simp
  · rw [if_pos h, ljust]

theorem padRecords_length (rows : List (List Char)) :
    ∀ r ∈ padRecords rows, r.length = maxRowLen rows := by
  intro r hr
  rw [padRecords_eq_map] at hr
  obtain ⟨r₀, hr₀, rfl⟩ := List.mem_map.mp hr
  have := length_le_maxRowLen rows r₀ hr₀
  simp [List.length_append, List.length_replicate]
  omega

theorem getElem?_pad (r : List Char) (k j : ℕ) (b : Char) (hb : ¬ b = '.') :
    ((r ++ List.replicate k '.')[j]? == some b) = (r[j]? == some b) := by
  by_cases hj : j < r.length
  · rw [List.getElem?_append_left hj]
  · have hj' : r.length ≤ j := Nat.le_of_not_lt hj
    rw [List.getElem?_append_right hj', List.getElem?_eq_none hj',
      List.getElem?_replicate]
    by_cases hlt : j - r.length < k
    · rw [if_pos hlt]
      have hne : ¬ ('.' = b) := fun h => hb h.symm
      simp [hne]
    · rw [if_neg hlt]

theorem countBase_pad (rows : List (List Char)) (j : ℕ) (b : Char)
    (hb : ¬ b = '.') :
    countBase (padRecords rows) j b = countBase rows j b := by
  rw [countBase, countBase, padRecords_eq_map, List.countP_map]
  apply List.countP_congr
  intro r _
  rw [Function.comp_apply, getElem?_pad r _ j b hb]

theorem any_congr_mem {α : Type} (l : List α) (p q : α → Bool)
    (h : ∀ x ∈ l, p x = q x) : l.any p = l.any q := by
  induction l with
  | nil => rfl
  | cons a l ih =>
    rw [List.any_cons, List.any_cons, h a (List.mem_cons_self a l),
      ih (fun x hx => h x (List.mem_cons_of_mem a hx))]

theorem hasGap_pad (rows : List (List Char)) :
    hasGap (padRecords rows) = hasGap rows := by
  rw [hasGap, hasGap, padRecords_eq_map, List.any_map]
  apply any_congr_mem
  intro r _
  rw [Function.comp_apply, List.any_append, List.any_replicate]
  have : ('.' == '-') = false := by decide
  cases k : maxRowLen rows - r.length with
  | zero => simp
  | succ n => simp [this]

theorem maxRowLen_pad (rows : List (List Char)) :
    maxRowLen (padRecords rows) = maxRowLen rows := by
  cases hrows : rows with
  | nil => rfl
  | cons a t =>
    apply maxRowLen_eq_of_all
    · simp [padRecords]
    · rw [← hrows]
      exact padRecords_length rows

theorem colIdentity_pad (rows : List (List Char)) (j : ℕ) :
    colIdentity (padRecords rows) j = colIdentity rows j := by
  rw [colIdentity, colIdentity,
    countBase_pad rows j 'A' (by decide), countBase_pad rows j 'C' (by decide),
    countBase_pad rows j 'G' (by decide), countBase_pad rows j 'T' (by decide),
    countBase_pad rows j '-' (by decide), hasGap_pad]

theorem identityProfile_pad (rows : List (List Char)) :
    identityProfile (padRecords rows) = identityProfile rows := by
  rw [identityProfile, identityProfile, maxRowLen_pad]
  apply List.map_congr_left
  intro j _
  exact colIdentity_pad rows j

theorem ratio_bounds (m d : ℕ) (hmd : m ≤ d) :
    0 ≤ ((m : ℚ) / (d : ℚ)) * 100 ∧ ((m : ℚ) / (d : ℚ)) * 100 ≤ 100 := by
  constructor
  · positivity
  · rcases Nat.eq_zero_or_pos d with hd | hd
    · have hm : m = 0 := by omega
      rw [hd, hm]
      norm_num
    · have hdq : (0 : ℚ) < (d : ℚ) := by exact_mod_cast hd
      have hle : (m : ℚ) / (d : ℚ) ≤ 1 := by
        rw [div_le_one hdq]
        exact_mod_cast hmd
      linarith

theorem specColumnValue_bounds (a c g t : ℕ) (gap : Option ℕ) :
    0 ≤ specColumnValue a c g t gap ∧ specColumnValue a c g t gap ≤ 100 := by
  have hb := ratio_bounds (max (max a c) (max g t)) (a + c + g + t + gap.getD 0)
    (by cases gap with
        | none => simp; omega
        | some x => simp; omega)
  simp only [specColumnValue]
  exact ⟨roundTo2_nonneg _ hb.1, roundTo2_le_100 _ hb.2⟩

theorem colIdentity_eq_spec (rows : List (List Char)) (j : ℕ) :
    colIdentity rows j =
      specColumnValue (countBase rows j 'A') (countBase rows j 'C')
        (countBase rows j 'G') (countBase rows j 'T')
        (if hasGap rows then some (countBase rows j '-') else none) := by
  by_cases h : hasGap rows = true
  · simp [colIdentity, specColumnValue, h]
  · simp [colIdentity, specColumnValue, h]

theorem colIdentity_bounds (rows : List (List Char)) (j : ℕ) :
    0 ≤ colIdentity rows j ∧ colIdentity rows j ≤ 100 := by
  rw [colIdentity_eq_spec]
  exact specColumnValue_bounds _ _ _ _ _

/-- C2: for every alignment, the conservation profile has one value
per column, and the value at column `i` equals the count of the most
frequent base among A, C, G, T at column `i`, divided by the total
observations at that column (gap counts in the denominator exactly
when a gap symbol occurs, and never in the numerator), times 100,
rounded to two decimals; consequently every value lies in `[0, 100]`. -/
theorem C2_profile_refines_spec (rows : List (List Char)) :
    (identityProfile rows).length = maxRowLen rows ∧
    ∀ i (hi : i < (identityProfile rows).length),
      (identityProfile rows).get ⟨i, hi⟩ =
        specColumnValue (countBase rows i 'A') (countBase rows i 'C')
          (countBase rows i 'G') (countBase rows i 'T')
          (if hasGap rows then some (countBase rows i '-') else none) ∧
      0 ≤ (identityProfile rows).get ⟨i, hi⟩ ∧
      (identityProfile rows).get ⟨i, hi⟩ ≤ 100 := by
  refine ⟨by simp [identityProfile], ?_⟩
  intro i hi
  have hget : (identityProfile rows).get ⟨i, hi⟩ = colIdentity rows i := by
    simp only [identityProfile, List.get_eq_getElem, List.getElem_map,
      List.getElem_range]
  rw [hget]
  exact ⟨colIdentity_eq_spec rows i, (colIdentity_bounds rows i).1,
    (colIdentity_bounds rows i).2⟩

/-- Witness for C2 on the two-row alignment `AA` / `AC`, column 0. -/
theorem C2_profile_refines_spec_witness :
    0 < (identityProfile [['A', 'A'], ['A', 'C']]).length ∧
    ((identityProfile [['A', 'A'], ['A', 'C']]).get ⟨0, by decide⟩ =
        specColumnValue (countBase [['A', 'A'], ['A', 'C']] 0 'A')
          (countBase [['A', 'A'], ['A', 'C']] 0 'C')
          (countBase [['A', 'A'], ['A', 'C']] 0 'G')
          (countBase [['A', 'A'], ['A', 'C']] 0 'T')
          (if hasGap [['A', 'A'], ['A', 'C']] then
            some (countBase [['A', 'A'], ['A', 'C']] 0 '-') else none) ∧
      0 ≤ (identityProfile [['A', 'A'], ['A', 'C']]).get ⟨0, by decide⟩ ∧
      (identityProfile [['A', 'A'], ['A', 'C']]).get ⟨0, by decide⟩ ≤ 100) :=
  ⟨by decide, (C2_profile_refines_spec [['A', 'A'], ['A', 'C']]).2 0 (by decide)⟩

/-- C9: unequal-length rows are right-padded with the `'.'` sentinel up
to the maximum row length; the consistency assertion then passes (and
on any row set that is still of unequal length it fails with the
alignment-inconsistency error rather than proceeding); and the padding
sentinel contributes to neither the numerator nor the denominator of
any column's identity value (the padded alignment has the same
conservation profile as the unpadded rows). -/
theorem C9_padding_safety (rows : List (List Char)) :
    (padRecords rows =
      rows.map (fun r => r ++ List.replicate (maxRowLen rows - r.length) '.')) ∧
    (∀ r ∈ padRecords rows, r.length = maxRowLen rows) ∧
    padAndCheck rows = Except.ok (padRecords rows) ∧
    (∀ (maxlen : ℕ) (rws : List (List Char)), (∃ r ∈ rws, r.length ≠ maxlen) →
      checkSameLength maxlen rws = Except.error AlignError.alignmentInconsistency) ∧
    identityProfile (padRecords rows) = identityProfile rows := by
  refine ⟨padRecords_eq_map rows, padRecords_length rows, ?_, ?_,
    identityProfile_pad rows⟩
  · rw [padAndCheck, checkSameLength, if_pos]
    rw [List.all_eq_true]
    intro r hr
    simpa using padRecords_length rows r hr
  · rintro maxlen rws ⟨r, hr, hne⟩
    rw [checkSameLength, if_neg]
    intro hall
    rw [List.all_eq_true] at hall
    exact hne (by simpa using hall r hr)

/-- Witness for C9 on the unequal-length rows `AC` / `A`: the short row
is padded to `A.`, and the length-2 check rejects the original rows. -/
theorem C9_padding_safety_witness :
    (['A'] ++ List.replicate 1 '.').length = maxRowLen [['A', 'C'], ['A']] ∧
    checkSameLength 2 [['A', 'C'], ['A']] =
      Except.error AlignError.alignmentInconsistency :=
  ⟨(C9_padding_safety [['A', 'C'], ['A']]).2.1 (['A'] ++ List.replicate 1 '.')
      (by decide),
    (C9_padding_safety [['A', 'C'], ['A']]).2.2.2.1 2 [['A', 'C'], ['A']]
      ⟨['A'], by decide, by decide⟩⟩

theorem sizeResult_fail_3 :
    sizeResult [(50 : ℚ), 50, 50] ['A', 'A', 'A'] 70 3 = ⟨3, 0, none, []⟩ := by
  have hmin : listMin [(50 : ℚ), 50, 50] = 50 := by simp [listMin]
  rw [sizeResult]
  norm_num [window, windowAux, scanWindows, hmin]

theorem sizeResult_fail_2 :
    sizeResult [(50 : ℚ), 50, 50] ['A', 'A', 'A'] 70 2 = ⟨2, 0, none, []⟩ := by
  have hmin : listMin [(50 : ℚ), 50] = 50 := by simp [listMin]
  rw [sizeResult]
  norm_num [window, windowAux, scanWindows, hmin]

/-- The probe search on the all-50% profile `[50, 50, 50]` with cutoff
70: no size has a passing window. -/
theorem probefinderGene_fail_eval :
    probefinderGene [(50 : ℚ), 50, 50] ['A', 'A', 'A'] 70 2 3 =
      [⟨3, 0, none, []⟩, ⟨2, 0, none, []⟩] := by
  have hsizes : descSizes 2 3 = [3, 2] := by decide
  rw [probefinderGene, hsizes, probefinderLoop, if_neg (by simp), sizeResult_fail_3]
  rw [probefinderLoop, if_neg (by simp), sizeResult_fail_2]
  rfl

/-- C1 (code bug): on a sample none of whose genes has a passing
window of any size in `[min_size, max_size]`, the probe selection is
indeed absent as data (`sample.location` is never assigned, first two
conjuncts), but the downstream extraction step does not complete or
get skipped: `Probes.probes` unconditionally reads `sample.location`
(line 301) and faults on the unset attribute (third conjunct), instead
of treating "no probe found" as a checked, non-exceptional outcome. -/
theorem C1_no_probe_extraction_faults :
    probefinderGene [(50 : ℚ), 50, 50] ['A', 'A', 'A'] 70 2 3 =
      [⟨3, 0, none, []⟩, ⟨2, 0, none, []⟩] ∧
    probeLocationSample [probefinderGene [(50 : ℚ), 50, 50] ['A', 'A', 'A'] 70 2 3] =
      none ∧
    probesSample
      (probeLocationSample [probefinderGene [(50 : ℚ), 50, 50] ['A', 'A', 'A'] 70 2 3])
      {['A', 'A', 'A']} = Except.error ExtractError.missingLocation := by
  refine ⟨probefinderGene_fail_eval, ?_, ?_⟩
  · rw [probefinderGene_fail_eval]
    rfl
  · rw [probefinderGene_fail_eval]
    rfl

/-- C8: extraction maps every allele string to its character-offset
slice `[start:stop]` and collects the results into a set: membership
in the output is exactly "being the slice of some allele" (duplicates
collapse); a `stop` beyond the allele's length truncates to the
available characters without error; and with a location present the
extraction step itself returns the image set, never a failure. -/
theorem C8_extract_slices_dedup (alleleset : Finset (List Char))
    (start stop : ℕ) :
    (∀ x : List Char, x ∈ probeExtractSet alleleset start stop ↔
      ∃ a ∈ alleleset, pySlice a start stop = x) ∧
    (∀ a : List Char, a.length ≤ stop → pySlice a start stop = a.drop start) ∧
    probesSample (some (start, stop)) alleleset =
      Except.ok (probeExtractSet alleleset start stop) := by
  refine ⟨?_, ?_, rfl⟩
  · intro x
    exact Finset.mem_image
  · intro a ha
    rw [pySlice]
    apply List.take_of_length_le
    rw [List.length_drop]
    omega

/-- Witness for C8: slicing `ACG` at `[1:2]` yields `C`, and a probe
range whose `stop` (5) exceeds the allele length truncates. -/
theorem C8_extract_slices_dedup_witness :
    (['C'] ∈ probeExtractSet {['A', 'C', 'G']} 1 2 ↔
      ∃ a ∈ ({['A', 'C', 'G']} : Finset (List Char)), pySlice a 1 2 = ['C']) ∧
    pySlice ['A', 'C'] 1 5 = (['A', 'C'] : List Char).drop 1 :=
  ⟨(C8_extract_slices_dedup {['A', 'C', 'G']} 1 2).1 ['C'],
    (C8_extract_slices_dedup {['A', 'C', 'G']} 1 5).2.1 ['A', 'C'] (by decide)⟩

theorem probeLocationGene_acc (g : List WindowData) :
    ∀ acc : Option (ℕ × ℕ), probeLocationGene g acc =
      (probeLocationGene g none).elim acc some := by
  induction g with
  | nil => intro acc; rfl
  | cons wd g ih =>
    intro acc
    have e : ∀ b : Option (ℕ × ℕ), probeLocationGene (wd :: g) b =
        probeLocationGene g (match windowWinner wd with
          | some sd => some sd.location
          | none => b) := fun b => rfl
    rw [e acc, e none]
    cases hw : windowWinner wd with
    | some sd =>
      simp only
      have hx : ∃ y, probeLocationGene g (some sd.location) = some y := by
        rw [ih (some sd.location)]
        cases hg : probeLocationGene g none with
        | none => exact ⟨sd.location, rfl⟩
        | some l => exact ⟨l, rfl⟩
      obtain ⟨y, hy⟩ := hx
      rw [hy]
      rfl
    | none =>
      simp only
      exact ih acc

/-- C10 (implicit): the winning location is one attribute of the
sample, and the gene loop of `probe_location` does not stop after the
first gene — whenever the sample's last gene has a winner (in
particular when two or more genes each have a passing window), the
recorded location is that last gene's winner regardless of any winner
of an earlier gene, and extraction applies that single range to every
allele of the sample; earlier genes' winners are overwritten and never
extracted. -/
theorem C10_last_gene_overwrites (genes : List (List WindowData))
    (alleleset : Finset (List Char)) (l2 : ℕ × ℕ) (hne : genes ≠ [])
    (hlast : probeLocationGene (genes.getLast hne) none = some l2) :
    probeLocationSample genes = some l2 ∧
    probesSample (probeLocationSample genes) alleleset =
      Except.ok (alleleset.image (fun a => pySlice a l2.1 l2.2)) := by
  have hdecomp : genes = genes.dropLast ++ [genes.getLast hne] :=
    (List.dropLast_append_getLast hne).symm
  have hs : probeLocationSample genes = some l2 := by
    conv_lhs => rw [hdecomp]
    rw [probeLocationSample, List.foldl_append, List.foldl_cons, List.foldl_nil]
    rw [probeLocationGene_acc, hlast]
    rfl
  refine ⟨hs, ?_⟩
  rw [hs]
  obtain ⟨s, t⟩ := l2
  rfl

/-- Witness for C10: a sample with two genes, the first winning at
range `(0, 2)` and the second at `(1, 3)`: the recorded location is
`(1, 3)` and extraction uses it for the allele set. -/
theorem C10_last_gene_overwrites_witness :
    probeLocationSample
        [[⟨2, 90, some 90, [⟨(0, 2), 90, 90, ['A', 'C']⟩]⟩],
          [⟨2, 80, some 80, [⟨(1, 3), 80, 80, ['C', 'G']⟩]⟩]] = some (1, 3) ∧
    probesSample
        (probeLocationSample
          [[⟨2, 90, some 90, [⟨(0, 2), 90, 90, ['A', 'C']⟩]⟩],
            [⟨2, 80, some 80, [⟨(1, 3), 80, 80, ['C', 'G']⟩]⟩]])
        {['A', 'C', 'G']} =
      Except.ok (({['A', 'C', 'G']} : Finset (List Char)).image
        (fun a => pySlice a (1, 3).1 (1, 3).2)) :=
  C10_last_gene_overwrites
    [[⟨2, 90, some 90, [⟨(0, 2), 90, 90, ['A', 'C']⟩]⟩],
      [⟨2, 80, some 80, [⟨(1, 3), 80, 80, ['C', 'G']⟩]⟩]]
    {['A', 'C', 'G']} (1, 3) (by simp)
    (by simp [List.getLast, probeLocationGene, windowWinner])

end AlleleFinder
